import Mathlib

/-!
Verification of the markdown-to-segment mapper with speech-synchronized
highlighting from the `ai_imam` repository.

The embedding models, over `List Char` (JS strings as sequences of code
units), the functions of `FatwaDisplay.tsx` (revision with the custom
`MarkdownRenderer`, and the revision with `markdownToHtml`):

* `segmentText` — the fallback word segmenter: the source's primary branch
  delegates to the external `Intl.Segmenter` capability (not part of this
  repository); the in-repository algorithm is the fallback branch, which
  splits on runs of whitespace with captured delimiters
  (`text.split(/(\s+)/)`) and keeps every non-empty part.
* `MRblocks` — the block parser of `MarkdownRenderer`: `text.split(/(\n{2,})/)`
  with captured delimiters, a running offset cursor advanced by every part's
  length, separator parts (odd index) and whitespace-only parts skipped,
  block type classification by leading-pattern tests.
* `renderUnits` — the rendered segment sequence: per block, `segmentText`
  over the block text (or per line for list/blockquote blocks) shifted to
  absolute offsets, with segments whose `endIndex` falls inside the declared
  marker region suppressed.
* `isHighlighted` — the highlight predicate of the `Word` component.
* `handleReadAloud` / `handleStopSpeech` / `utteranceOnError` — the speech
  controller, with the global speech-synthesis engine modelled as the list
  of its live utterances (`speak` appends, `cancel` clears).
* `wordContent` — the inline formatter of the `Word` component: three
  sequential global regex replacements for bold+italic, bold, italic.
* `markdownToHtml`-side helpers: `normalizeNewlines`, `jsTrim`, `mdIsUl`.
-/

/-- The whitespace test used throughout (JS `\s` on the code points the
source actually produces: space, tab, newline, carriage return, vertical
tab, form feed). -/
def isWs (c : Char) : Bool :=
  c == ' ' || c == '\t' || c == '\n' || c == '\r' || c == '\x0b' || c == '\x0c'

/-- Length of the longest prefix whose characters all satisfy `p`. -/
def countLeadingP (p : Char → Bool) : List Char → Nat
  | [] => 0
  | c :: rest => if p c then countLeadingP p rest + 1 else 0

/-- JS `String.prototype.trim`: drop whitespace from both ends. -/
def jsTrim (s : List Char) : List Char :=
  ((s.dropWhile isWs).reverse.dropWhile isWs).reverse

/-- JS `str.split('\n')` (literal separator, no regex). -/
def splitLines : List Char → List (List Char)
  | [] => [[]]
  | c :: rest =>
    if c = '\n' then [] :: splitLines rest
    else
      match splitLines rest with
      | [] => [[c]]
      | l :: ls => (c :: l) :: ls

/-- Length of the string a line list came from: line lengths plus one
newline between consecutive lines. -/
def linesWeight : List (List Char) → Nat
  | [] => 0
  | [l] => l.length
  | l :: rest => l.length + 1 + linesWeight rest

/-- A segment produced by `segmentText`: its text, word-likeness flag and
absolute start/end offsets into the original source string. -/
structure Segment where
  text : List Char
  isWordLike : Bool
  startIndex : Nat
  endIndex : Nat
deriving DecidableEq

/-- JS `text.split(/(\s+)/)`: alternating (possibly empty) non-whitespace
chunks and captured maximal whitespace runs. `chunkRev` is the current
chunk reversed, `wsRev` the pending whitespace run reversed. -/
def splitWsAux (chunkRev wsRev : List Char) : List Char → List (List Char)
  | [] =>
    if wsRev.isEmpty then [chunkRev.reverse]
    else [chunkRev.reverse, wsRev.reverse, []]
  | c :: rest =>
    if isWs c then splitWsAux chunkRev (c :: wsRev) rest
    else if wsRev.isEmpty then splitWsAux (c :: chunkRev) [] rest
    else chunkRev.reverse :: wsRev.reverse :: splitWsAux [c] [] rest

def jsSplitWs (text : List Char) : List (List Char) :=
  splitWsAux [] [] text

/-- The `forEach` loop of the fallback segmenter: every non-empty part is
pushed with `startIndex = globalOffset + wordOffset`, a part is word-like
iff it contains a non-whitespace character (`/\S/.test(part)`), and
`wordOffset` advances by the part's length. -/
def segLoop (globalOffset : Nat) : List (List Char) → Nat → List Segment
  | [], _ => []
  | part :: rest, wordOffset =>
    if part.length > 0 then
      { text := part
        isWordLike := part.any (fun c => !(isWs c))
        startIndex := globalOffset + wordOffset
        endIndex := globalOffset + wordOffset + part.length }
        :: segLoop globalOffset rest (wordOffset + part.length)
    else segLoop globalOffset rest wordOffset

/-- The function `segmentText(text, lang, globalOffset)` — the in-repository fallback
branch of the segmenter (the primary branch calls the external
`Intl.Segmenter`). The language tag is accepted but unused by the
fallback, exactly as in the source. -/
def segmentText (text : List Char) (lang : List Char) (globalOffset : Nat) :
    List Segment :=
  segLoop globalOffset (jsSplitWs text) 0

-- Basic lemmas about the segmenter.

theorem splitWsAux_flatten (rest : List Char) : ∀ chunkRev wsRev,
    (splitWsAux chunkRev wsRev rest).flatten
      = chunkRev.reverse ++ wsRev.reverse ++ rest := by
  induction rest with
  | nil =>
    intro chunkRev wsRev
    by_cases h : wsRev.isEmpty
    · simp [splitWsAux, h, List.isEmpty_iff.mp h]
    · simp [splitWsAux, h]
  | cons c rest ih =>
    intro chunkRev wsRev
    by_cases h : isWs c
    · simp [splitWsAux, h, ih]
    · by_cases h2 : wsRev.isEmpty
      · simp [splitWsAux, h, h2, ih, List.isEmpty_iff.mp h2]
      · simp [splitWsAux, h, h2, ih]

theorem jsSplitWs_flatten (text : List Char) : (jsSplitWs text).flatten = text := by
  simp [jsSplitWs, splitWsAux_flatten]

theorem segLoop_flatten (off : Nat) (parts : List (List Char)) : ∀ w,
    (((segLoop off parts w).map Segment.text)).flatten = parts.flatten := by
  induction parts with
  | nil => intro w; simp [segLoop]
  | cons part rest ih =>
    intro w
    by_cases h : part.length > 0
    · simp [segLoop, h, ih]
    · have : part = [] := List.length_eq_zero.mp (by omega)
      simp [segLoop, h, ih, this]

theorem segLoop_len (off : Nat) (parts : List (List Char)) : ∀ w,
    ∀ s ∈ segLoop off parts w, s.endIndex = s.startIndex + s.text.length := by
  induction parts with
  | nil => intro w s hs; simp [segLoop] at hs
  | cons part rest ih =>
    intro w s hs
    by_cases h : part.length > 0
    · simp only [segLoop, if_pos h, List.mem_cons] at hs
      rcases hs with rfl | hs
      · rfl
      · exact ih _ s hs
    · simp only [segLoop, if_neg h] at hs
      exact ih _ s hs

theorem segLoop_head (off : Nat) (parts : List (List Char)) : ∀ w s,
    (segLoop off parts w).head? = some s → s.startIndex = off + w := by
  induction parts with
  | nil => intro w s hs; simp [segLoop] at hs
  | cons part rest ih =>
    intro w s hs
    by_cases h : part.length > 0
    · simp only [segLoop, if_pos h, List.head?_cons, Option.some.injEq] at hs
      rw [← hs]
    · have : part = [] := List.length_eq_zero.mp (by omega)
      simp only [segLoop, if_neg h] at hs
      exact ih _ s hs

theorem segLoop_chain (off : Nat) (parts : List (List Char)) : ∀ w,
    List.Chain' (fun a b => a.endIndex = b.startIndex) (segLoop off parts w) := by
  induction parts with
  | nil => intro w; simp [segLoop]
  | cons part rest ih =>
    intro w
    by_cases h : part.length > 0
    · simp only [segLoop, if_pos h]
      rw [List.chain'_cons']
      refine ⟨?_, ih _⟩
      intro b hb
      have := segLoop_head off rest (w + part.length) b hb
      simp [this, Nat.add_assoc]
    · simp only [segLoop, if_neg h]
      exact ih _

theorem segLoop_nil (off : Nat) (lang : List Char) :
    segmentText [] lang off = [] := by
  simp [segmentText, jsSplitWs, splitWsAux, segLoop]

/-- Claim C3: the fallback segmenter covers its input fully and
contiguously: concatenating segment texts reconstructs the input, each
segment's `endIndex` exceeds its `startIndex` by its text length, segments
are contiguous, the first segment starts at the global offset, and the
empty input yields no segments. -/
theorem segmenter_full_coverage (text lang : List Char) (off : Nat) :
    ((segmentText text lang off).map Segment.text).flatten = text
    ∧ (∀ s ∈ segmentText text lang off,
        s.endIndex = s.startIndex + s.text.length)
    ∧ List.Chain' (fun a b => a.endIndex = b.startIndex)
        (segmentText text lang off)
    ∧ (∀ s, (segmentText text lang off).head? = some s → s.startIndex = off)
    ∧ segmentText [] lang off = [] := by
  refine ⟨?_, ?_, ?_, ?_, ?_⟩
  · rw [segmentText, segLoop_flatten, jsSplitWs_flatten]
  · exact segLoop_len off (jsSplitWs text) 0
  · exact segLoop_chain off (jsSplitWs text) 0
  · intro s hs
    have := segLoop_head off (jsSplitWs text) 0 s hs
    simpa using this
  · exact segLoop_nil off lang

/-- Witness for C3 at a concrete input. -/
theorem segmenter_full_coverage_witness :
    ((segmentText ("Hello world".toList) "en-US".toList 0).map Segment.text).flatten
      = "Hello world".toList
    ∧ (∀ s, (segmentText ("ab cd".toList) "en-US".toList 7).head? = some s →
        s.startIndex = 7) := by
  refine ⟨(segmenter_full_coverage ("Hello world".toList) "en-US".toList 0).1, ?_⟩
  exact (segmenter_full_coverage ("ab cd".toList) "en-US".toList 7).2.2.2.1

-- Offset coverage machinery.

/-- Predicate `covers c seg`: the render-unit range contains offset `c`. -/
def covers (c : Nat) (seg : Segment) : Bool :=
  decide (seg.startIndex ≤ c ∧ c < seg.endIndex)

/-- The suppression filter of the renderer: drop the segments whose
`endIndex` falls inside the declared marker region
(`if (seg.endIndex <= bound) return null`). -/
def suppressUpTo (bound : Nat) (segs : List Segment) : List Segment :=
  segs.filter (fun seg => !(decide (seg.endIndex ≤ bound)))

theorem segLoop_bounds (off : Nat) (parts : List (List Char)) : ∀ w,
    ∀ s ∈ segLoop off parts w,
      off + w ≤ s.startIndex ∧ s.startIndex < s.endIndex
        ∧ s.endIndex ≤ off + w + parts.flatten.length := by
  induction parts with
  | nil => intro w s hs; simp [segLoop] at hs
  | cons part rest ih =>
    intro w s hs
    by_cases h : part.length > 0
    · simp only [segLoop, if_pos h, List.mem_cons] at hs
      rcases hs with rfl | hs
      · simp only [List.flatten_cons, List.length_append]
        omega
      · have := ih (w + part.length) s hs
        simp only [List.flatten_cons, List.length_append]
        omega
    · have hp : part = [] := List.length_eq_zero.mp (by omega)
      simp only [segLoop, if_neg h] at hs
      have := ih w s hs
      simp only [List.flatten_cons, hp, List.length_nil, List.nil_append]
      omega

theorem countP_covers_zero_of_lb (L : List Segment) (c lb : Nat)
    (hmem : ∀ s ∈ L, lb ≤ s.startIndex) (hc : c < lb) :
    L.countP (covers c) = 0 := by
  rw [List.countP_eq_zero]
  intro s hs
  have := hmem s hs
  simp only [covers, decide_eq_true_eq]
  omega

theorem countP_covers_zero_of_ub (L : List Segment) (c ub : Nat)
    (hmem : ∀ s ∈ L, s.endIndex ≤ ub) (hc : ub ≤ c) :
    L.countP (covers c) = 0 := by
  rw [List.countP_eq_zero]
  intro s hs
  have := hmem s hs
  simp only [covers, decide_eq_true_eq]
  omega

theorem segLoop_cov (off : Nat) (parts : List (List Char)) : ∀ w c,
    (segLoop off parts w).countP (covers c)
      = if off + w ≤ c ∧ c < off + w + parts.flatten.length then 1 else 0 := by
  induction parts with
  | nil =>
    intro w c
    simp only [segLoop, List.countP_nil, List.flatten_nil, List.length_nil]
    split_ifs with h
    · omega
    · rfl
  | cons part rest ih =>
    intro w c
    by_cases h : part.length > 0
    · simp only [segLoop, if_pos h, List.countP_cons, ih (w + part.length) c,
        List.flatten_cons, List.length_append, covers, decide_eq_true_eq]
      split_ifs <;> omega
    · have hp : part = [] := List.length_eq_zero.mp (by omega)
      subst hp
      simp [segLoop, ih w c]

theorem countP_suppress_cons (B c : Nat) (x : Segment) (L : List Segment)
    (hx : covers c x = false) :
    (suppressUpTo B (x :: L)).countP (covers c)
      = (suppressUpTo B L).countP (covers c) := by
  simp only [suppressUpTo, List.filter_cons]
  split_ifs with h
  · simp [List.countP_cons, hx]
  · rfl

theorem segLoop_suppress_cov (off B : Nat) (parts : List (List Char)) : ∀ w c,
    off + w ≤ c → c < off + w + parts.flatten.length →
    (suppressUpTo B (segLoop off parts w)).countP (covers c) = 1
    ∨ ((suppressUpTo B (segLoop off parts w)).countP (covers c) = 0 ∧ c < B) := by
  induction parts with
  | nil =>
    intro w c h1 h2
    simp only [List.flatten_nil, List.length_nil] at h2
    omega
  | cons part rest ih =>
    intro w c h1 h2
    by_cases h : part.length > 0
    · by_cases hin : c < off + w + part.length
      · -- `c` lies inside the leading part: its segment is the only candidate.
        have hrest0 : (List.filter (fun seg => !decide (seg.endIndex ≤ B))
            (segLoop off rest (w + part.length))).countP (covers c) = 0 := by
          apply countP_covers_zero_of_lb _ _ (off + w + part.length)
          · intro s hs
            have hs2 : s ∈ segLoop off rest (w + part.length) :=
              List.mem_of_mem_filter hs
            have := (segLoop_bounds off rest (w + part.length) s hs2).1
            omega
          · exact hin
        by_cases hk : off + w + part.length ≤ B
        · -- the covering segment is suppressed
          right
          have hkeep : (!decide (off + w + part.length ≤ B)) = false := by simp [hk]
          constructor
          · simp only [segLoop, if_pos h, suppressUpTo, List.filter_cons, hkeep,
              Bool.false_eq_true, if_false]
            exact hrest0
          · omega
        · -- the covering segment survives
          left
          have hkeep : (!decide (off + w + part.length ≤ B)) = true := by simp [hk]
          simp only [segLoop, if_pos h, suppressUpTo, List.filter_cons, hkeep,
            if_true, List.countP_cons, hrest0, covers, decide_eq_true_eq]
          split_ifs with hc
          · rfl
          · omega
      · -- `c` lies beyond the leading part: recurse.
        have hrec := ih (w + part.length) c (by omega)
          (by simp only [List.flatten_cons, List.length_append] at h2; omega)
        have hx : covers c (Segment.mk part (part.any (fun z => !(isWs z)))
            (off + w) (off + w + part.length)) = false := by
          simp only [covers, decide_eq_false_iff_not]
          omega
        simp only [segLoop, if_pos h]
        rw [countP_suppress_cons B c _ _ hx]
        exact hrec
    · have hp : part = [] := List.length_eq_zero.mp (by omega)
      subst hp
      have h2' : c < off + w + rest.flatten.length := by
        simpa using h2
      have := ih w c h1 h2'
      simpa [segLoop] using this

-- The block parser of `MarkdownRenderer`.

/-- JS `text.split(/(\n{2,})/)`: alternating (possibly empty) chunks and
captured maximal runs of two or more newlines. `chunkRev` is the current
chunk reversed and `p` counts pending newlines not yet classified. -/
def splitNNAux (chunkRev : List Char) (p : Nat) : List Char → List (List Char)
  | [] =>
    if p ≥ 2 then [chunkRev.reverse, List.replicate p '\n', []]
    else [chunkRev.reverse ++ List.replicate p '\n']
  | c :: rest =>
    if c = '\n' then splitNNAux chunkRev (p + 1) rest
    else if p ≥ 2 then
      chunkRev.reverse :: List.replicate p '\n' :: splitNNAux [c] 0 rest
    else splitNNAux (c :: (List.replicate p '\n' ++ chunkRev)) 0 rest

def splitNN (text : List Char) : List (List Char) :=
  splitNNAux [] 0 text

theorem splitNNAux_flatten (rest : List Char) : ∀ chunkRev p,
    (splitNNAux chunkRev p rest).flatten
      = chunkRev.reverse ++ List.replicate p '\n' ++ rest := by
  induction rest with
  | nil =>
    intro chunkRev p
    by_cases h : p ≥ 2
    · simp [splitNNAux, h]
    · simp [splitNNAux, h]
  | cons c rest ih =>
    intro chunkRev p
    by_cases h : c = '\n'
    · subst h
      have step : splitNNAux chunkRev p ('\n' :: rest)
          = splitNNAux chunkRev (p + 1) rest := by
        simp [splitNNAux]
      rw [step, ih, List.replicate_succ']
      simp [List.append_assoc]
    · by_cases h2 : p ≥ 2
      · simp [splitNNAux, h, h2, ih]
      · simp only [splitNNAux, if_neg h, if_neg h2, ih]
        simp

theorem splitNN_flatten (text : List Char) : (splitNN text).flatten = text := by
  simp [splitNN, splitNNAux_flatten]

/-- The block kinds of `MarkdownRenderer` (`'paragraph' | 'blockquote' |
'ul' | 'ol' | 'header'`). -/
inductive BlockType
  | paragraph
  | blockquote
  | ul
  | ol
  | header
deriving DecidableEq

/-- JS `\d` digit test. -/
def isDigitChar (c : Char) : Bool := decide ('0' ≤ c) && decide (c ≤ '9')

/-- The test `/^#{1,6}\s/.test(part)`: one to six leading hashes followed by a
whitespace character. -/
def isHeaderStart (part : List Char) : Bool :=
  let h := countLeadingP (fun c => c == '#') part
  decide (1 ≤ h) && decide (h ≤ 6)
    && (match part.drop h with
        | c :: _ => isWs c
        | [] => false)

/-- Length of the match of `/^(#{1,6}\s+)/` (`0` when it does not match,
as in `prefixMatch ? prefixMatch[0].length : 0`). -/
def headerMarkerLen (part : List Char) : Nat :=
  if isHeaderStart part then
    countLeadingP (fun c => c == '#') part
      + countLeadingP isWs (part.drop (countLeadingP (fun c => c == '#') part))
  else 0

/-- The test `/^>/.test(part)`. -/
def isBqStart : List Char → Bool
  | c :: _ => c == '>'
  | [] => false

/-- Length of the match of `/^>\s?/` on one blockquote line (`0` when the
line has no `>`). -/
def bqLineMarkerLen : List Char → Nat
  | '>' :: c :: _ => if isWs c then 2 else 1
  | '>' :: [] => 1
  | _ => 0

/-- The test `/^[-*]\s/.test(part)`. -/
def isUlStart : List Char → Bool
  | c0 :: c1 :: _ => (c0 == '-' || c0 == '*') && isWs c1
  | _ => false

/-- Per-line unordered-list marker length: the match of `/^[-*]\s+/`, with
the source's fallback of `2` when the line does not match. -/
def ulLineMarkerLen (line : List Char) : Nat :=
  if isUlStart line then 1 + countLeadingP isWs (line.drop 1) else 2

/-- The test `/^\d+\.\s/.test(part)`. -/
def isOlStart (part : List Char) : Bool :=
  let d := countLeadingP isDigitChar part
  decide (1 ≤ d)
    && (match part.drop d with
        | '.' :: c :: _ => isWs c
        | _ => false)

/-- Per-line ordered-list marker length: the match of `/^\d+\.\s+/`, with
the source's fallback of `3` when the line does not match. -/
def olLineMarkerLen (line : List Char) : Nat :=
  if isOlStart line then
    countLeadingP isDigitChar line + 1
      + countLeadingP isWs (line.drop (countLeadingP isDigitChar line + 1))
  else 3

/-- Block type identification of `MarkdownRenderer.blocks`, in source
order: header, blockquote, unordered list, ordered list, else paragraph. -/
def classify (part : List Char) : BlockType :=
  if isHeaderStart part then .header
  else if isBqStart part then .blockquote
  else if isUlStart part then .ul
  else if isOlStart part then .ol
  else .paragraph

/-- A parsed block: its kind, raw text and absolute start offset (the
`prefixRegex` of the source is determined by the kind). -/
structure Block where
  type : BlockType
  text : List Char
  start : Nat
deriving DecidableEq

/-- The `parts.map` loop of `MarkdownRenderer.blocks`: the cursor advances
by every part's length (separators included); separator parts (odd index)
and parts with empty trim are dropped; the rest become blocks. -/
def blocksAux : List (List Char) → Nat → Nat → List Block
  | [], _, _ => []
  | part :: rest, idx, cursor =>
    if idx % 2 ≠ 0 then blocksAux rest (idx + 1) (cursor + part.length)
    else if (jsTrim part).isEmpty then blocksAux rest (idx + 1) (cursor + part.length)
    else Block.mk (classify part) part cursor :: blocksAux rest (idx + 1) (cursor + part.length)

/-- The blocks list of `MarkdownRenderer`: split on runs of two or more newlines with
captured delimiters and walk the parts with a running offset cursor. -/
def MRblocks (text : List Char) : List Block :=
  blocksAux (splitNN text) 0 0

theorem blocksAux_start_lb (parts : List (List Char)) : ∀ idx cursor,
    ∀ b ∈ blocksAux parts idx cursor, cursor ≤ b.start := by
  induction parts with
  | nil => intro idx cursor b hb; simp [blocksAux] at hb
  | cons part rest ih =>
    intro idx cursor b hb
    by_cases h1 : idx % 2 ≠ 0
    · simp only [blocksAux, if_pos h1] at hb
      have := ih (idx + 1) (cursor + part.length) b hb
      omega
    · by_cases h2 : (jsTrim part).isEmpty
      · simp only [blocksAux, if_neg h1, if_pos h2] at hb
        have := ih (idx + 1) (cursor + part.length) b hb
        omega
      · simp only [blocksAux, if_neg h1, if_neg h2, List.mem_cons] at hb
        rcases hb with rfl | hb
        · simp
        · have := ih (idx + 1) (cursor + part.length) b hb
          omega

theorem blocksAux_sub (text : List Char) (parts : List (List Char)) :
    ∀ idx cursor, text.drop cursor = parts.flatten →
    ∀ b ∈ blocksAux parts idx cursor,
      (text.drop b.start).take b.text.length = b.text := by
  induction parts with
  | nil => intro idx cursor _ b hb; simp [blocksAux] at hb
  | cons part rest ih =>
    intro idx cursor hdrop b hb
    have hdrop2 : text.drop (cursor + part.length) = rest.flatten := by
      rw [← List.drop_drop, hdrop]
      simp [List.flatten_cons, List.drop_left]
    by_cases h1 : idx % 2 ≠ 0
    · simp only [blocksAux, if_pos h1] at hb
      exact ih (idx + 1) (cursor + part.length) hdrop2 b hb
    · by_cases h2 : (jsTrim part).isEmpty
      · simp only [blocksAux, if_neg h1, if_pos h2] at hb
        exact ih (idx + 1) (cursor + part.length) hdrop2 b hb
      · simp only [blocksAux, if_neg h1, if_neg h2, List.mem_cons] at hb
        rcases hb with rfl | hb
        · simp only [List.flatten_cons] at hdrop
          simp [hdrop, List.take_left]
        · exact ih (idx + 1) (cursor + part.length) hdrop2 b hb

theorem blocksAux_pairwise (parts : List (List Char)) : ∀ idx cursor,
    List.Pairwise (fun a b => a.start + a.text.length ≤ b.start)
      (blocksAux parts idx cursor) := by
  induction parts with
  | nil => intro idx cursor; simp [blocksAux]
  | cons part rest ih =>
    intro idx cursor
    by_cases h1 : idx % 2 ≠ 0
    · simp only [blocksAux, if_pos h1]
      exact ih (idx + 1) (cursor + part.length)
    · by_cases h2 : (jsTrim part).isEmpty
      · simp only [blocksAux, if_neg h1, if_pos h2]
        exact ih (idx + 1) (cursor + part.length)
      · simp only [blocksAux, if_neg h1, if_neg h2]
        rw [List.pairwise_cons]
        refine ⟨?_, ih (idx + 1) (cursor + part.length)⟩
        intro b hb
        have := blocksAux_start_lb rest (idx + 1) (cursor + part.length) b hb
        simp only
        omega

/-- Claim C2: every block's recorded start offset points at its raw text
in the original string, and blocks are in source order with
`startOffset(i+1) ≥ startOffset(i) + length(rawText(i))`. -/
theorem block_offsets_exact (text : List Char) :
    (∀ b ∈ MRblocks text, (text.drop b.start).take b.text.length = b.text)
    ∧ List.Pairwise (fun a b => a.start + a.text.length ≤ b.start)
        (MRblocks text) := by
  constructor
  · exact blocksAux_sub text (splitNN text) 0 0 (by simp [splitNN_flatten])
  · exact blocksAux_pairwise (splitNN text) 0 0

/-- Witness for C2 at a concrete input: the second block of
`"a b\n\ncd"` starts at offset 5 and its text is found there. -/
theorem block_offsets_exact_witness :
    (("a b\n\ncd".toList.drop 5).take 2 = "cd".toList) := by
  have h := (block_offsets_exact ("a b\n\ncd".toList)).1
    (Block.mk BlockType.paragraph ("cd".toList) 5) (by decide)
  simpa using h

-- The markdown-segment renderer.

/-- The per-line rendering loop of list and blockquote blocks: segment each
line at the running `lineCursor`, suppress segments ending inside the
line's marker region, and advance the cursor by the line length plus one
for the newline. -/
def renderLines (lang : List Char) (plen : List Char → Nat) :
    List (List Char) → Nat → List Segment
  | [], _ => []
  | line :: rest, lineCursor =>
    suppressUpTo (lineCursor + plen line) (segmentText line lang lineCursor)
      ++ renderLines lang plen rest (lineCursor + line.length + 1)

/-- The render units produced for one block, following the source case by
case: paragraph segments are all rendered; header segments ending inside
the `/^(#{1,6}\s+)/` match are suppressed; blockquote and list blocks are
rendered line by line with their per-line marker lengths. -/
def renderBlock (lang : List Char) (b : Block) : List Segment :=
  match b.type with
  | .paragraph => segmentText b.text lang b.start
  | .header =>
    suppressUpTo (b.start + headerMarkerLen b.text)
      (segmentText b.text lang b.start)
  | .blockquote => renderLines lang bqLineMarkerLen (splitLines b.text) b.start
  | .ul => renderLines lang ulLineMarkerLen (splitLines b.text) b.start
  | .ol => renderLines lang olLineMarkerLen (splitLines b.text) b.start

/-- The full sequence of render units of `MarkdownRenderer`. -/
def renderUnits (text lang : List Char) : List Segment :=
  ((MRblocks text).map (renderBlock lang)).flatten

-- Gap regions: where an offset may legitimately be covered by no unit.

/-- Interval membership for a list of half-open regions. -/
def inRegions (rs : List (Nat × Nat)) (c : Nat) : Bool :=
  rs.any (fun r => decide (r.1 ≤ c) && decide (c < r.2))

/-- Point membership. -/
def inPoints (ps : List Nat) (c : Nat) : Bool :=
  ps.any (fun p => p == c)

/-- The inter-block separator runs (odd-indexed parts of the split). -/
def sepRegionsAux : List (List Char) → Nat → Nat → List (Nat × Nat)
  | [], _, _ => []
  | part :: rest, idx, cursor =>
    (if idx % 2 ≠ 0 then [(cursor, cursor + part.length)] else [])
      ++ sepRegionsAux rest (idx + 1) (cursor + part.length)

/-- The even-indexed parts skipped because their trim is empty
(whitespace-only chunks between separators). -/
def skippedRegionsAux : List (List Char) → Nat → Nat → List (Nat × Nat)
  | [], _, _ => []
  | part :: rest, idx, cursor =>
    (if idx % 2 = 0 then
      if (jsTrim part).isEmpty then [(cursor, cursor + part.length)] else []
     else [])
      ++ skippedRegionsAux rest (idx + 1) (cursor + part.length)

/-- Per-line marker regions of a multi-line block. -/
def lineMarkerRegions (plen : List Char → Nat) :
    List (List Char) → Nat → List (Nat × Nat)
  | [], _ => []
  | line :: rest, cur =>
    (cur, cur + plen line) :: lineMarkerRegions plen rest (cur + line.length + 1)

/-- The suppressed marker regions declared by a block. -/
def blockMarkerRegions (b : Block) : List (Nat × Nat) :=
  match b.type with
  | .paragraph => []
  | .header => [(b.start, b.start + headerMarkerLen b.text)]
  | .blockquote => lineMarkerRegions bqLineMarkerLen (splitLines b.text) b.start
  | .ul => lineMarkerRegions ulLineMarkerLen (splitLines b.text) b.start
  | .ol => lineMarkerRegions olLineMarkerLen (splitLines b.text) b.start

/-- The offsets of the newlines separating consecutive lines of a
multi-line block (those characters belong to no line's segments). -/
def lineBreakPositions : List (List Char) → Nat → List Nat
  | [], _ => []
  | [_], _ => []
  | line :: next :: rest, cur =>
    (cur + line.length) :: lineBreakPositions (next :: rest) (cur + line.length + 1)

def blockLineBreaks (b : Block) : List Nat :=
  match b.type with
  | .blockquote | .ul | .ol => lineBreakPositions (splitLines b.text) b.start
  | _ => []

/-- Gap membership of the four kinds, for the whole text. -/
def inSepGap (text : List Char) (c : Nat) : Bool :=
  inRegions (sepRegionsAux (splitNN text) 0 0) c

def inSkippedChunkGap (text : List Char) (c : Nat) : Bool :=
  inRegions (skippedRegionsAux (splitNN text) 0 0) c

def inMarkerGap (text : List Char) (c : Nat) : Bool :=
  inRegions (((MRblocks text).map blockMarkerRegions).flatten) c

def inLineBreakGap (text : List Char) (c : Nat) : Bool :=
  inPoints (((MRblocks text).map blockLineBreaks).flatten) c

-- Structural facts about lines.

theorem splitLines_ne_nil (s : List Char) : splitLines s ≠ [] := by
  cases s with
  | nil => simp [splitLines]
  | cons c rest =>
    by_cases h : c = '\n'
    · simp [splitLines, h]
    · simp only [splitLines, if_neg h]
      cases hsl : splitLines rest with
      | nil => simp
      | cons l ls => simp

theorem linesWeight_splitLines (s : List Char) :
    linesWeight (splitLines s) = s.length := by
  induction s with
  | nil => simp [splitLines, linesWeight]
  | cons c rest ih =>
    by_cases h : c = '\n'
    · subst h
      simp only [splitLines, if_pos rfl]
      cases hsl : splitLines rest with
      | nil => exact absurd hsl (splitLines_ne_nil rest)
      | cons l ls =>
        rw [hsl] at ih
        cases ls with
        | nil =>
          simp only [linesWeight, List.length_nil, List.length_cons]
          simp only [linesWeight] at ih
          omega
        | cons l2 ls2 =>
          simp only [linesWeight, List.length_nil, List.length_cons]
          simp only [linesWeight] at ih
          omega
    · simp only [splitLines, if_neg h]
      cases hsl : splitLines rest with
      | nil => exact absurd hsl (splitLines_ne_nil rest)
      | cons l ls =>
        rw [hsl] at ih
        cases ls with
        | nil =>
          simp only [linesWeight, List.length_cons]
          simp only [linesWeight] at ih
          omega
        | cons l2 ls2 =>
          simp only [linesWeight, List.length_cons]
          simp only [linesWeight] at ih
          omega

-- Coverage facts about `segmentText`.

theorem segmentText_cov (t lang : List Char) (off c : Nat) :
    (segmentText t lang off).countP (covers c)
      = if off ≤ c ∧ c < off + t.length then 1 else 0 := by
  have := segLoop_cov off (jsSplitWs t) 0 c
  rw [jsSplitWs_flatten] at this
  simpa [segmentText] using this

theorem segmentText_suppress_cov (t lang : List Char) (off B c : Nat)
    (h1 : off ≤ c) (h2 : c < off + t.length) :
    (suppressUpTo B (segmentText t lang off)).countP (covers c) = 1
    ∨ ((suppressUpTo B (segmentText t lang off)).countP (covers c) = 0 ∧ c < B) := by
  have := segLoop_suppress_cov off B (jsSplitWs t) 0 c (by omega)
  rw [jsSplitWs_flatten] at this
  exact this (by omega)

theorem segmentText_bounds (t lang : List Char) (off : Nat) :
    ∀ s ∈ segmentText t lang off,
      off ≤ s.startIndex ∧ s.startIndex < s.endIndex
        ∧ s.endIndex ≤ off + t.length := by
  intro s hs
  have := segLoop_bounds off (jsSplitWs t) 0 s hs
  rw [jsSplitWs_flatten] at this
  simpa using this

theorem suppress_subset (B : Nat) (L : List Segment) :
    ∀ s ∈ suppressUpTo B L, s ∈ L := by
  intro s hs
  exact List.mem_of_mem_filter hs

-- Coverage facts about `renderLines`.

theorem renderLines_lb (lang : List Char) (plen : List Char → Nat)
    (lines : List (List Char)) : ∀ cur,
    ∀ s ∈ renderLines lang plen lines cur, cur ≤ s.startIndex := by
  induction lines with
  | nil => intro cur s hs; simp [renderLines] at hs
  | cons line rest ih =>
    intro cur s hs
    simp only [renderLines, List.mem_append] at hs
    rcases hs with hs | hs
    · exact (segmentText_bounds line lang cur s (suppress_subset _ _ s hs)).1
    · have := ih (cur + line.length + 1) s hs
      omega

theorem renderLines_ub (lang : List Char) (plen : List Char → Nat)
    (lines : List (List Char)) : ∀ cur,
    ∀ s ∈ renderLines lang plen lines cur,
      s.endIndex ≤ cur + linesWeight lines := by
  induction lines with
  | nil => intro cur s hs; simp [renderLines] at hs
  | cons line rest ih =>
    intro cur s hs
    simp only [renderLines, List.mem_append] at hs
    cases rest with
    | nil =>
      rcases hs with hs | hs
      · have := (segmentText_bounds line lang cur s (suppress_subset _ _ s hs)).2.2
        simp only [linesWeight]
        omega
      · simp [renderLines] at hs
    | cons l2 ls2 =>
      rcases hs with hs | hs
      · have := (segmentText_bounds line lang cur s (suppress_subset _ _ s hs)).2.2
        simp only [linesWeight]
        omega
      · have := ih (cur + line.length + 1) s hs
        simp only [linesWeight]
        omega

theorem inRegions_cons_head (r : Nat × Nat) (rs : List (Nat × Nat)) (c : Nat)
    (h1 : r.1 ≤ c) (h2 : c < r.2) : inRegions (r :: rs) c = true := by
  simp only [inRegions, List.any_cons, Bool.or_eq_true, Bool.and_eq_true,
    decide_eq_true_eq]
  exact Or.inl ⟨h1, h2⟩

theorem inRegions_cons_tail (r : Nat × Nat) (rs : List (Nat × Nat)) (c : Nat)
    (h : inRegions rs c = true) : inRegions (r :: rs) c = true := by
  simp only [inRegions, List.any_cons, Bool.or_eq_true]
  exact Or.inr (by simpa [inRegions] using h)

theorem inPoints_cons_head (p : Nat) (ps : List Nat) (c : Nat) (h : p = c) :
    inPoints (p :: ps) c = true := by
  simp only [inPoints, List.any_cons, Bool.or_eq_true, beq_iff_eq]
  exact Or.inl h

theorem inPoints_cons_tail (p : Nat) (ps : List Nat) (c : Nat)
    (h : inPoints ps c = true) : inPoints (p :: ps) c = true := by
  simp only [inPoints, List.any_cons, Bool.or_eq_true]
  exact Or.inr (by simpa [inPoints] using h)

theorem renderLines_cov (lang : List Char) (plen : List Char → Nat)
    (lines : List (List Char)) : ∀ cur c,
    cur ≤ c → c < cur + linesWeight lines →
    (renderLines lang plen lines cur).countP (covers c) = 1
    ∨ ((renderLines lang plen lines cur).countP (covers c) = 0
        ∧ (inRegions (lineMarkerRegions plen lines cur) c = true
            ∨ inPoints (lineBreakPositions lines cur) c = true)) := by
  induction lines with
  | nil =>
    intro cur c h1 h2
    simp only [linesWeight] at h2
    omega
  | cons line rest ih =>
    intro cur c h1 h2
    have hrest0 : c < cur + line.length →
        (renderLines lang plen rest (cur + line.length + 1)).countP (covers c)
          = 0 := by
      intro hc
      apply countP_covers_zero_of_lb _ _ (cur + line.length + 1)
      · exact fun s hs => renderLines_lb lang plen rest (cur + line.length + 1) s hs
      · omega
    have hline0 : cur + line.length ≤ c →
        (suppressUpTo (cur + plen line)
          (segmentText line lang cur)).countP (covers c) = 0 := by
      intro hc
      apply countP_covers_zero_of_ub _ _ (cur + line.length)
      · intro s hs
        exact (segmentText_bounds line lang cur s (suppress_subset _ _ s hs)).2.2
      · omega
    by_cases hin : c < cur + line.length
    · -- inside the line's own range
      have hseg := segmentText_suppress_cov line lang cur (cur + plen line) c h1 hin
      simp only [renderLines, List.countP_append, hrest0 hin]
      rcases hseg with hl | ⟨hl, hB⟩
      · left
        omega
      · right
        refine ⟨by omega, Or.inl ?_⟩
        have hmr : lineMarkerRegions plen (line :: rest) cur
            = (cur, cur + plen line)
              :: lineMarkerRegions plen rest (cur + line.length + 1) := rfl
        rw [hmr]
        exact inRegions_cons_head _ _ _ (by omega) (by omega)
    · -- at the newline after the line, or in a later line
      cases rest with
      | nil =>
        simp only [linesWeight] at h2
        omega
      | cons l2 ls2 =>
        by_cases heq : c = cur + line.length
        · -- the newline between this line and the next
          right
          constructor
          · simp only [renderLines, List.countP_append, hline0 (by omega)]
            have : (renderLines lang plen (l2 :: ls2)
                (cur + line.length + 1)).countP (covers c) = 0 := by
              apply countP_covers_zero_of_lb _ _ (cur + line.length + 1)
              · exact fun s hs =>
                  renderLines_lb lang plen (l2 :: ls2) (cur + line.length + 1) s hs
              · omega
            simp only [renderLines, List.countP_append] at this
            omega
          · right
            have hbp : lineBreakPositions (line :: l2 :: ls2) cur
                = (cur + line.length)
                  :: lineBreakPositions (l2 :: ls2) (cur + line.length + 1) := rfl
            rw [hbp]
            exact inPoints_cons_head _ _ _ (by omega)
        · -- inside a later line
          have hc2 : cur + line.length + 1 ≤ c := by omega
          have h2' : c < cur + line.length + 1 + linesWeight (l2 :: ls2) := by
            simp only [linesWeight] at h2 ⊢
            omega
          have hrec := ih (cur + line.length + 1) c hc2 h2'
          simp only [renderLines, List.countP_append, hline0 (by omega)]
          simp only [renderLines, List.countP_append] at hrec
          have hmr : lineMarkerRegions plen (line :: l2 :: ls2) cur
              = (cur, cur + plen line)
                :: lineMarkerRegions plen (l2 :: ls2) (cur + line.length + 1) := rfl
          have hbp : lineBreakPositions (line :: l2 :: ls2) cur
              = (cur + line.length)
                :: lineBreakPositions (l2 :: ls2) (cur + line.length + 1) := rfl
          rcases hrec with hl | ⟨hl, hgap⟩
          · left
            omega
          · right
            refine ⟨by omega, ?_⟩
            rcases hgap with hg | hg
            · left
              rw [hmr]
              exact inRegions_cons_tail _ _ _ hg
            · right
              rw [hbp]
              exact inPoints_cons_tail _ _ _ hg

-- Block-level coverage.

theorem renderBlock_bounds (lang : List Char) (b : Block) :
    ∀ s ∈ renderBlock lang b,
      b.start ≤ s.startIndex ∧ s.endIndex ≤ b.start + b.text.length := by
  obtain ⟨ty, tx, st⟩ := b
  intro s hs
  cases ty with
  | paragraph =>
    simp only [renderBlock] at hs
    have := segmentText_bounds tx lang st s hs
    exact ⟨this.1, this.2.2⟩
  | header =>
    simp only [renderBlock] at hs
    have := segmentText_bounds tx lang st s (suppress_subset _ _ s hs)
    exact ⟨this.1, this.2.2⟩
  | blockquote =>
    simp only [renderBlock] at hs
    refine ⟨renderLines_lb _ _ _ _ s hs, ?_⟩
    have := renderLines_ub lang bqLineMarkerLen (splitLines tx) st s hs
    rwa [linesWeight_splitLines] at this
  | ul =>
    simp only [renderBlock] at hs
    refine ⟨renderLines_lb _ _ _ _ s hs, ?_⟩
    have := renderLines_ub lang ulLineMarkerLen (splitLines tx) st s hs
    rwa [linesWeight_splitLines] at this
  | ol =>
    simp only [renderBlock] at hs
    refine ⟨renderLines_lb _ _ _ _ s hs, ?_⟩
    have := renderLines_ub lang olLineMarkerLen (splitLines tx) st s hs
    rwa [linesWeight_splitLines] at this

theorem renderBlock_cov (lang : List Char) (b : Block) (c : Nat)
    (h1 : b.start ≤ c) (h2 : c < b.start + b.text.length) :
    (renderBlock lang b).countP (covers c) = 1
    ∨ ((renderBlock lang b).countP (covers c) = 0
        ∧ (inRegions (blockMarkerRegions b) c = true
            ∨ inPoints (blockLineBreaks b) c = true)) := by
  obtain ⟨ty, tx, st⟩ := b
  simp only at h1 h2
  cases ty with
  | paragraph =>
    left
    simp only [renderBlock, segmentText_cov]
    rw [if_pos ⟨h1, h2⟩]
  | header =>
    have := segmentText_suppress_cov tx lang st (st + headerMarkerLen tx) c h1 h2
    rcases this with hl | ⟨hl, hB⟩
    · left
      simpa only [renderBlock] using hl
    · right
      refine ⟨by simpa only [renderBlock] using hl, Or.inl ?_⟩
      simp only [blockMarkerRegions]
      exact inRegions_cons_head _ _ _ (by simpa) (by simpa)
  | blockquote =>
    have := renderLines_cov lang bqLineMarkerLen (splitLines tx) st c h1
      (by rw [linesWeight_splitLines]; omega)
    simpa only [renderBlock, blockMarkerRegions, blockLineBreaks] using this
  | ul =>
    have := renderLines_cov lang ulLineMarkerLen (splitLines tx) st c h1
      (by rw [linesWeight_splitLines]; omega)
    simpa only [renderBlock, blockMarkerRegions, blockLineBreaks] using this
  | ol =>
    have := renderLines_cov lang olLineMarkerLen (splitLines tx) st c h1
      (by rw [linesWeight_splitLines]; omega)
    simpa only [renderBlock, blockMarkerRegions, blockLineBreaks] using this

-- Global coverage.

theorem unitsFrom_lb (lang : List Char) (parts : List (List Char))
    (idx cursor : Nat) :
    ∀ s ∈ ((blocksAux parts idx cursor).map (renderBlock lang)).flatten,
      cursor ≤ s.startIndex := by
  intro s hs
  rw [List.mem_flatten] at hs
  obtain ⟨L, hL, hsL⟩ := hs
  rw [List.mem_map] at hL
  obtain ⟨b, hb, rfl⟩ := hL
  have h1 := blocksAux_start_lb parts idx cursor b hb
  have h2 := (renderBlock_bounds lang b s hsL).1
  omega

theorem inRegions_append_left (A B : List (Nat × Nat)) (c : Nat)
    (h : inRegions A c = true) : inRegions (A ++ B) c = true := by
  simp only [inRegions, List.any_append, Bool.or_eq_true]
  exact Or.inl (by simpa [inRegions] using h)

theorem inRegions_append_right (A B : List (Nat × Nat)) (c : Nat)
    (h : inRegions B c = true) : inRegions (A ++ B) c = true := by
  simp only [inRegions, List.any_append, Bool.or_eq_true]
  exact Or.inr (by simpa [inRegions] using h)

theorem inPoints_append_left (A B : List Nat) (c : Nat)
    (h : inPoints A c = true) : inPoints (A ++ B) c = true := by
  simp only [inPoints, List.any_append, Bool.or_eq_true]
  exact Or.inl (by simpa [inPoints] using h)

theorem inPoints_append_right (A B : List Nat) (c : Nat)
    (h : inPoints B c = true) : inPoints (A ++ B) c = true := by
  simp only [inPoints, List.any_append, Bool.or_eq_true]
  exact Or.inr (by simpa [inPoints] using h)

theorem unitsFrom_cov (lang : List Char) (parts : List (List Char)) :
    ∀ idx cursor c, cursor ≤ c → c < cursor + parts.flatten.length →
    (((blocksAux parts idx cursor).map (renderBlock lang)).flatten.countP
        (covers c) = 1)
    ∨ ((((blocksAux parts idx cursor).map (renderBlock lang)).flatten.countP
        (covers c) = 0)
        ∧ (inRegions (((blocksAux parts idx cursor).map
              blockMarkerRegions).flatten) c = true
          ∨ inRegions (sepRegionsAux parts idx cursor) c = true
          ∨ inRegions (skippedRegionsAux parts idx cursor) c = true
          ∨ inPoints (((blocksAux parts idx cursor).map
              blockLineBreaks).flatten) c = true)) := by
  induction parts with
  | nil =>
    intro idx cursor c h1 h2
    simp only [List.flatten_nil, List.length_nil] at h2
    omega
  | cons part rest ih =>
    intro idx cursor c h1 h2
    have hflat : (part :: rest).flatten.length
        = part.length + rest.flatten.length := by
      simp
    by_cases hin : c < cursor + part.length
    · -- `c` lies inside the leading part
      have hrest0 : ((blocksAux rest (idx + 1) (cursor + part.length)).map
          (renderBlock lang)).flatten.countP (covers c) = 0 := by
        apply countP_covers_zero_of_lb _ _ (cursor + part.length)
        · exact unitsFrom_lb lang rest (idx + 1) (cursor + part.length)
        · omega
      by_cases hsep : idx % 2 ≠ 0
      · -- separator part: no units, `c` is in the separator region
        right
        simp only [blocksAux, if_pos hsep, sepRegionsAux, skippedRegionsAux,
          if_neg (by omega : ¬ idx % 2 = 0)]
        refine ⟨hrest0, Or.inr (Or.inl ?_)⟩
        simp only [if_pos hsep, List.singleton_append]
        exact inRegions_cons_head _ _ _ (by omega) (by omega)
      · by_cases htrim : (jsTrim part).isEmpty
        · -- skipped whitespace-only chunk
          right
          simp only [blocksAux, if_neg hsep, if_pos htrim, sepRegionsAux,
            skippedRegionsAux, if_pos (by omega : idx % 2 = 0), if_pos htrim]
          refine ⟨hrest0, Or.inr (Or.inr (Or.inl ?_))⟩
          simp only [if_neg hsep, List.nil_append, List.singleton_append]
          exact inRegions_cons_head _ _ _ (by omega) (by omega)
        · -- an emitted block containing `c`
          have hblock := renderBlock_cov lang (Block.mk (classify part) part cursor)
            c (by simpa using h1) (by simpa using hin)
          simp only [blocksAux, if_neg hsep, if_neg htrim, List.map_cons,
            List.flatten_cons, List.countP_append, sepRegionsAux,
            skippedRegionsAux, if_neg (by omega : ¬ idx % 2 ≠ 0),
            if_pos (by omega : idx % 2 = 0), if_neg htrim, List.nil_append]
          rcases hblock with hl | ⟨hl, hgap⟩
          · left
            omega
          · right
            refine ⟨by omega, ?_⟩
            rcases hgap with hg | hg
            · exact Or.inl (inRegions_append_left _ _ _ hg)
            · exact Or.inr (Or.inr (Or.inr (inPoints_append_left _ _ _ hg)))
    · -- `c` lies beyond the leading part: recurse
      have hrec := ih (idx + 1) (cursor + part.length) c (by omega)
        (by rw [hflat] at h2; omega)
      by_cases hsep : idx % 2 ≠ 0
      · simp only [blocksAux, if_pos hsep, sepRegionsAux, skippedRegionsAux,
          if_neg (by omega : ¬ idx % 2 = 0), if_pos hsep, List.nil_append,
          List.singleton_append]
        rcases hrec with hl | ⟨hl, hgap⟩
        · left
          exact hl
        · right
          refine ⟨hl, ?_⟩
          rcases hgap with hg | hg | hg | hg
          · exact Or.inl hg
          · exact Or.inr (Or.inl (inRegions_cons_tail _ _ _ hg))
          · exact Or.inr (Or.inr (Or.inl hg))
          · exact Or.inr (Or.inr (Or.inr hg))
      · by_cases htrim : (jsTrim part).isEmpty
        · simp only [blocksAux, if_neg hsep, if_pos htrim, sepRegionsAux,
            skippedRegionsAux, if_neg hsep, if_pos (by omega : idx % 2 = 0),
            if_pos htrim, List.nil_append, List.singleton_append]
          rcases hrec with hl | ⟨hl, hgap⟩
          · left
            exact hl
          · right
            refine ⟨hl, ?_⟩
            rcases hgap with hg | hg | hg | hg
            · exact Or.inl hg
            · exact Or.inr (Or.inl hg)
            · exact Or.inr (Or.inr (Or.inl (inRegions_cons_tail _ _ _ hg)))
            · exact Or.inr (Or.inr (Or.inr hg))
        · -- an emitted block entirely before `c`
          have hblock0 : (renderBlock lang
              (Block.mk (classify part) part cursor)).countP (covers c) = 0 := by
            apply countP_covers_zero_of_ub _ _ (cursor + part.length)
            · intro s hs
              simpa using (renderBlock_bounds lang _ s hs).2
            · omega
          simp only [blocksAux, if_neg hsep, if_neg htrim, List.map_cons,
            List.flatten_cons, List.countP_append, sepRegionsAux,
            skippedRegionsAux, if_neg (by omega : ¬ idx % 2 ≠ 0),
            if_pos (by omega : idx % 2 = 0), if_neg htrim, List.nil_append]
          rcases hrec with hl | ⟨hl, hgap⟩
          · left
            omega
          · right
            refine ⟨by omega, ?_⟩
            rcases hgap with hg | hg | hg | hg
            · exact Or.inl (inRegions_append_right _ _ _ hg)
            · exact Or.inr (Or.inl hg)
            · exact Or.inr (Or.inr (Or.inl hg))
            · exact Or.inr (Or.inr (Or.inr (inPoints_append_right _ _ _ hg)))

/-- Counterexample to claim C1 as stated: in the unordered-list source
`"- a\n- b"` the newline at offset 3 is covered by no render unit, yet it
lies neither in a suppressed marker region nor in an inter-block separator
run, so "exactly one unit, or a suppressed/separator gap" fails. -/
theorem offset_coverage_cex :
    ¬ (((renderUnits ("- a\n- b".toList) "en-US".toList).countP (covers 3) = 1)
      ∨ (((renderUnits ("- a\n- b".toList) "en-US".toList).countP (covers 3) = 0)
          ∧ (inMarkerGap ("- a\n- b".toList) 3 = true
              ∨ inSepGap ("- a\n- b".toList) 3 = true))) := by
  decide

/-- Claim C1 (amended): every valid offset is covered by exactly one
render unit, or by none and it lies in a suppressed marker region, an
inter-block separator run, a skipped whitespace-only chunk, or at a
newline separating the lines of a list or blockquote block; in particular
no offset is ever covered by two or more units. -/
theorem offset_coverage (text lang : List Char) (c : Nat)
    (hc : c < text.length) :
    ((renderUnits text lang).countP (covers c) = 1)
    ∨ (((renderUnits text lang).countP (covers c) = 0)
        ∧ (inMarkerGap text c = true
            ∨ inSepGap text c = true
            ∨ inSkippedChunkGap text c = true
            ∨ inLineBreakGap text c = true)) := by
  have := unitsFrom_cov lang (splitNN text) 0 0 c (by omega)
    (by rw [splitNN_flatten]; omega)
  simpa only [renderUnits, MRblocks, inMarkerGap, inSepGap, inSkippedChunkGap,
    inLineBreakGap] using this

/-- Witness for the amended C1 at a concrete input. -/
theorem offset_coverage_witness :
    ((renderUnits ("- a\n- b".toList) "en-US".toList).countP (covers 2) = 1)
    ∨ (((renderUnits ("- a\n- b".toList) "en-US".toList).countP (covers 2) = 0)
        ∧ (inMarkerGap ("- a\n- b".toList) 2 = true
            ∨ inSepGap ("- a\n- b".toList) 2 = true
            ∨ inSkippedChunkGap ("- a\n- b".toList) 2 = true
            ∨ inLineBreakGap ("- a\n- b".toList) 2 = true)) :=
  offset_coverage ("- a\n- b".toList) "en-US".toList 2 (by decide)

-- Highlight resolution.

/-- The two language channels. -/
inductive Channel
  | english
  | arabic
deriving DecidableEq

/-- The Highlight State: which channel is being spoken and the live
character offset reported by the last boundary event. -/
structure Highlight where
  lang : Channel
  charIndex : Int
deriving DecidableEq

/-- The highlight predicate of the `Word` component:
`!!seg.isWordLike && highlightCharIndex >= seg.startIndex &&
highlightCharIndex < seg.endIndex`. The live index is an integer because
the renderer is invoked with the sentinel `-1` when the channel is not
speaking. -/
def isHighlighted (seg : Segment) (highlightCharIndex : Int) : Bool :=
  seg.isWordLike && decide ((seg.startIndex : Int) ≤ highlightCharIndex)
    && decide (highlightCharIndex < (seg.endIndex : Int))

/-- The index passed to `MarkdownRenderer` for a card:
`highlight?.lang === channel ? highlight.charIndex : -1`. -/
def highlightIndexFor (h : Option Highlight) (ch : Channel) : Int :=
  match h with
  | some hl => if hl.lang = ch then hl.charIndex else -1
  | none => -1

/-- Rendering with highlighting: each unit paired with its highlight flag. -/
def renderWithHighlight (units : List Segment) (c : Int) :
    List (Segment × Bool) :=
  units.map (fun u => (u, isHighlighted u c))

/-- Claim C4: a unit is highlighted iff it is word-like and its range
contains the live offset; for `"Hello world"` the boundary offset 6
resolves to exactly the unit covering `"world"`, and offset 5 (inside the
non-word-like space unit) resolves to no unit. -/
theorem highlight_resolution :
    (∀ (seg : Segment) (c : Int),
        isHighlighted seg c = true
          ↔ seg.isWordLike = true ∧ (seg.startIndex : Int) ≤ c
              ∧ c < (seg.endIndex : Int))
    ∧ (renderUnits ("Hello world".toList) "en-US".toList).filter
        (fun u => isHighlighted u 6)
        = [Segment.mk ("world".toList) true 6 11]
    ∧ (renderUnits ("Hello world".toList) "en-US".toList).filter
        (fun u => isHighlighted u 5) = [] := by
  refine ⟨?_, by decide, by decide⟩
  intro seg c
  simp [isHighlighted, Bool.and_eq_true, decide_eq_true_eq, and_assoc]

/-- Witness for C4: the characterization applied at a concrete segment. -/
theorem highlight_resolution_witness :
    isHighlighted (Segment.mk ("hi".toList) true 0 2) 1 = true :=
  (highlight_resolution.1 (Segment.mk ("hi".toList) true 0 2) 1).mpr
    ⟨rfl, by decide, by decide⟩

/-- Claim C10: with no active channel the renderer receives the sentinel
`-1`; every segment has a non-negative `startIndex`, so no unit is ever
highlighted and the output equals rendering with highlighting disabled. -/
theorem sentinel_no_highlight (text lang : List Char) (ch : Channel) :
    highlightIndexFor none ch = -1
    ∧ renderWithHighlight (renderUnits text lang) (highlightIndexFor none ch)
        = (renderUnits text lang).map (fun u => (u, false))
    ∧ (∀ u : Segment, isHighlighted u (-1) = false) := by
  have hfalse : ∀ u : Segment, isHighlighted u (-1) = false := by
    intro u
    have h1 : decide ((u.startIndex : Int) ≤ -1) = false := by
      simp only [decide_eq_false_iff_not]
      omega
    simp [isHighlighted, h1]
  refine ⟨rfl, ?_, hfalse⟩
  simp only [renderWithHighlight, highlightIndexFor]
  exact List.map_congr_left (fun u _ => by rw [hfalse])

-- The speech controller.

/-- The controller state: the global speech-synthesis engine modelled as
the list of its live utterances (tagged by channel; `speak` appends,
`cancel` clears), plus the controller's own speaking-language register
(`speakingLang` in the source). -/
structure SpeechState where
  engine : List Channel
  speakingLang : Option Channel
deriving DecidableEq

/-- The handler `handleReadAloud(language)`: if the requested channel is the one
recorded as speaking, cancel and reset (toggle-off) and return; otherwise
cancel whatever is speaking, speak the new utterance and record the
channel. -/
def handleReadAloud (s : SpeechState) (language : Channel) : SpeechState :=
  if s.speakingLang = some language then
    SpeechState.mk [] none
  else
    SpeechState.mk ((if s.engine.isEmpty then s.engine else []) ++ [language])
      (some language)

/-- The handler `handleStopSpeech()`: if the engine is speaking, cancel and clear the
speaking register. -/
def handleStopSpeech (s : SpeechState) : SpeechState :=
  if s.engine.isEmpty then s else SpeechState.mk [] none

/-- A user operation on the controller. -/
inductive SpeechOp
  | read (ch : Channel)
  | stop
deriving DecidableEq

def speechStep (s : SpeechState) : SpeechOp → SpeechState
  | .read ch => handleReadAloud s ch
  | .stop => handleStopSpeech s

/-- Run a sequence of operations from the idle initial state. -/
def runSpeechOps (ops : List SpeechOp) : SpeechState :=
  ops.foldl speechStep (SpeechState.mk [] none)

theorem speechStep_single (s : SpeechState) (op : SpeechOp)
    (h : s.engine.length ≤ 1) : (speechStep s op).engine.length ≤ 1 := by
  cases op with
  | read ch =>
    simp only [speechStep, handleReadAloud]
    split_ifs with h1 h2
    · simp
    · simp [List.isEmpty_iff.mp h2]
    · simp
  | stop =>
    simp only [speechStep, handleStopSpeech]
    split_ifs with h1
    · exact h
    · simp

theorem runSpeechOps_single (ops : List SpeechOp) :
    ∀ s : SpeechState, s.engine.length ≤ 1 →
      (ops.foldl speechStep s).engine.length ≤ 1 := by
  induction ops with
  | nil => intro s h; simpa using h
  | cons op rest ih =>
    intro s h
    simp only [List.foldl_cons]
    exact ih (speechStep s op) (speechStep_single s op h)

/-- Claim C5: toggle-off semantics (same channel → cancel, idle, no new
utterance), switch semantics (other channel speaking → it is cancelled and
exactly the requested utterance is live), and the single-active-channel
invariant after any operation sequence from the idle state (every prefix
of a sequence is itself a sequence, so every intermediate state is
covered). -/
theorem speech_controller_states :
    (∀ (s : SpeechState) (ch : Channel), s.speakingLang = some ch →
        handleReadAloud s ch = SpeechState.mk [] none)
    ∧ (∀ (s : SpeechState) (ch other : Channel), s.speakingLang = some other →
        other ≠ ch →
        (handleReadAloud s ch).engine = [ch]
          ∧ (handleReadAloud s ch).speakingLang = some ch)
    ∧ (∀ ops : List SpeechOp, (runSpeechOps ops).engine.length ≤ 1) := by
  refine ⟨?_, ?_, ?_⟩
  · intro s ch h
    simp [handleReadAloud, h]
  · intro s ch other h hne
    have h2 : ¬ s.speakingLang = some ch := by
      rw [h]
      simp [hne]
    constructor
    · simp only [handleReadAloud, if_neg h2]
      by_cases h3 : s.engine.isEmpty
      · have : s.engine = [] := List.isEmpty_iff.mp h3
        simp [h3, this]
      · simp [h3]
    · simp [handleReadAloud, h2]
  · intro ops
    exact runSpeechOps_single ops (SpeechState.mk [] none) (by simp)

/-- Witness for C5: toggling off a live English utterance. -/
theorem speech_controller_states_witness :
    handleReadAloud (SpeechState.mk [Channel.english] (some Channel.english))
      Channel.english = SpeechState.mk [] none :=
  speech_controller_states.1
    (SpeechState.mk [Channel.english] (some Channel.english))
    Channel.english rfl

-- Error handling of the utterance `onerror` callback.

/-- The error reason string the engine reports after a cancel. -/
def interruptedReason : List Char := "interrupted".toList

/-- Outcome of the `onerror` handler: what is reported to the console and
the resulting Highlight State. -/
structure ErrorOutcome where
  reported : Option (List Char)
  highlight : Option Highlight
deriving DecidableEq

/-- The handler `utterance.onerror`: `if (e.error !== 'interrupted')
console.error(...); setHighlight(null)`. -/
def utteranceOnError (errReason : List Char) : ErrorOutcome :=
  ErrorOutcome.mk
    (if errReason = interruptedReason then none else some errReason)
    none

/-- Claim C6: an `"interrupted"` error (the engine's reaction to a cancel)
is swallowed and clears the Highlight State; any other reason is reported
(non-fatally) and also clears the Highlight State. -/
theorem interrupted_is_silent :
    (utteranceOnError interruptedReason).reported = none
    ∧ (utteranceOnError interruptedReason).highlight = none
    ∧ (∀ r : List Char, r ≠ interruptedReason →
        (utteranceOnError r).reported = some r
          ∧ (utteranceOnError r).highlight = none) := by
  refine ⟨by simp [utteranceOnError], rfl, ?_⟩
  intro r hr
  exact ⟨by simp [utteranceOnError, hr], rfl⟩

/-- Witness for C6: a genuine error reason is reported. -/
theorem interrupted_is_silent_witness :
    (utteranceOnError ("not-allowed".toList)).reported
      = some ("not-allowed".toList) :=
  (interrupted_is_silent.2.2 ("not-allowed".toList) (by decide)).1

-- The `markdownToHtml` converter side.

/-- The per-line test of `markdownToHtml`:
`line.match(/^(\*|-|\+) /)` (a list bullet followed by a literal space). -/
def ulSpaceLine : List Char → Bool
  | c0 :: c1 :: _ => (c0 == '*' || c0 == '-' || c0 == '+') && c1 == ' '
  | _ => false

/-- The unordered-list detection of `markdownToHtml`:
`lines.length > 0 && lines.every(line => line.match(/^(\*|-|\+) /))`. -/
def mdIsUl (blockText : List Char) : Bool :=
  decide ((splitLines blockText).length > 0)
    && (splitLines blockText).all ulSpaceLine

/-- JS `md.replace(/\r\n/g, '\n')`. -/
def normalizeNewlines : List Char → List Char
  | [] => []
  | '\r' :: '\n' :: rest => '\n' :: normalizeNewlines rest
  | c :: rest => c :: normalizeNewlines rest

/-- Modelled from the spec (§4.3 step 1), for comparison with the code:
a block parser that first normalizes line endings and trims the whole
text, then adds the trimmed-away leading length as a base offset to every
block's start offset. -/
def specTrimmedBlocks (text : List Char) : List Block :=
  (MRblocks (jsTrim (normalizeNewlines text))).map
    (fun b => Block.mk b.type b.text
      (b.start + countLeadingP isWs (normalizeNewlines text)))

/-- Counterexample to claim C7 as stated: the renderer classifies a block
by its first characters only, so `"- a\nx"` is an UnorderedList although
its second line does not match `^[*+-] `. -/
theorem ul_classification_cex :
    ¬ (classify ("- a\nx".toList) = BlockType.ul
        ↔ mdIsUl ("- a\nx".toList) = true) := by
  decide

theorem countLeading_hash_zero (c0 : Char) (l : List Char)
    (h : (c0 == '#') = false) :
    countLeadingP (fun c => c == '#') (c0 :: l) = 0 := by
  simp [countLeadingP, h]

theorem isUlStart_shape (part : List Char) (h : isUlStart part = true) :
    ∃ c0 c1 r, part = c0 :: c1 :: r
      ∧ (c0 = '-' ∨ c0 = '*') ∧ isWs c1 = true := by
  cases part with
  | nil => simp [isUlStart] at h
  | cons c0 tail =>
    cases tail with
    | nil => simp [isUlStart] at h
    | cons c1 r =>
      simp only [isUlStart, Bool.and_eq_true, Bool.or_eq_true, beq_iff_eq] at h
      exact ⟨c0, c1, r, rfl, h.1, h.2⟩

theorem classify_ul_iff (part : List Char) :
    classify part = BlockType.ul ↔ isUlStart part = true := by
  constructor
  · intro h
    by_cases h3 : isUlStart part
    · exact h3
    · exfalso
      simp only [classify] at h
      split_ifs at h
  · intro h
    obtain ⟨c0, c1, r, rfl, hc0, _⟩ := isUlStart_shape part h
    have hhash : (c0 == '#') = false := by
      rcases hc0 with rfl | rfl <;> decide
    have hh : isHeaderStart (c0 :: c1 :: r) = false := by
      simp [isHeaderStart, countLeading_hash_zero c0 _ hhash]
    have hbq : isBqStart (c0 :: c1 :: r) = false := by
      simp only [isBqStart]
      rcases hc0 with rfl | rfl <;> decide
    simp [classify, hh, hbq, h]

/-- Claim C7 (amended): the offset-tracking renderer classifies a block
as UnorderedList iff the block's first characters match `^[-*]\s` (only
the first line is examined and `+` is not accepted), while the separate
`markdownToHtml` converter requires every line to match `^[*+-] `; the
per-line suppression length is the `^[-*]\s+` match length with fallback
2 when the line fails to match (3 for ordered-list lines). -/
theorem ul_classification :
    (∀ part : List Char, classify part = BlockType.ul ↔ isUlStart part = true)
    ∧ (∀ blockText : List Char, mdIsUl blockText = true
        ↔ ∀ line ∈ splitLines blockText, ulSpaceLine line = true)
    ∧ (∀ line : List Char, isUlStart line = true →
        ulLineMarkerLen line = 1 + countLeadingP isWs (line.drop 1))
    ∧ (∀ line : List Char, isUlStart line = false → ulLineMarkerLen line = 2)
    ∧ (∀ line : List Char, isOlStart line = false → olLineMarkerLen line = 3) := by
  refine ⟨classify_ul_iff, ?_, ?_, ?_, ?_⟩
  · intro blockText
    constructor
    · intro h line hline
      simp only [mdIsUl, Bool.and_eq_true, List.all_eq_true] at h
      exact h.2 line hline
    · intro h
      simp only [mdIsUl, Bool.and_eq_true, List.all_eq_true]
      refine ⟨?_, h⟩
      have := splitLines_ne_nil blockText
      simp [List.length_pos, this]
  · intro line h
    simp [ulLineMarkerLen, h]
  · intro line h
    simp [ulLineMarkerLen, h]
  · intro line h
    simp [olLineMarkerLen, h]

/-- Witness for the amended C7: a first-line match classifies as
UnorderedList. -/
theorem ul_classification_witness :
    classify ("- item".toList) = BlockType.ul :=
  (ul_classification.1 ("- item".toList)).mpr (by decide)

-- Claim C8: normalization/trim and the offset base.

/-- Counterexample to claim C8 as stated: the offset-tracking block
parser does not trim, so on `" a"` it keeps the leading space and starts
the block at offset 0, while the trim-plus-base-offset behaviour the
claim describes would produce the block `"a"` at offset 1. -/
theorem trim_base_offset_cex :
    ¬ (MRblocks (" a".toList) = specTrimmedBlocks (" a".toList)) := by
  decide

theorem length_dropWhile_ws_le (l : List Char) :
    (l.dropWhile isWs).length ≤ l.length := by
  induction l with
  | nil => simp
  | cons c rest ih =>
    by_cases h : isWs c
    · simp only [List.dropWhile_cons, h, if_true, List.length_cons]
      omega
    · simp [List.dropWhile_cons, h]

theorem countLeading_ws_zero (s : List Char) (h : jsTrim s = s) :
    countLeadingP isWs s = 0 := by
  cases s with
  | nil => rfl
  | cons c rest =>
    by_cases hw : isWs c
    · exfalso
      have hlen : (jsTrim (c :: rest)).length ≤ rest.length := by
        simp only [jsTrim, List.dropWhile_cons, hw, if_true]
        calc ((((rest.dropWhile isWs).reverse).dropWhile isWs).reverse).length
            = (((rest.dropWhile isWs).reverse).dropWhile isWs).length :=
              List.length_reverse _
          _ ≤ ((rest.dropWhile isWs).reverse).length :=
              length_dropWhile_ws_le _
          _ = (rest.dropWhile isWs).length := List.length_reverse _
          _ ≤ rest.length := length_dropWhile_ws_le _
      rw [h] at hlen
      simp only [List.length_cons] at hlen
      omega
    · simp [countLeadingP, hw]

/-- Claim C8 (amended): the offset-tracking block parser performs no
normalization and no trimming — its offsets are absolute into the text
exactly as given — so it agrees with the spec's
normalize-trim-plus-base-offset description precisely on inputs that are
already normalized and already trimmed (where the base offset is 0). -/
theorem trim_base_offset (text : List Char)
    (h1 : normalizeNewlines text = text) (h2 : jsTrim text = text) :
    MRblocks text = specTrimmedBlocks text := by
  have hlead : countLeadingP isWs text = 0 := countLeading_ws_zero text h2
  have hf : (fun b : Block => Block.mk b.type b.text (b.start + 0))
      = fun b => b := by
    funext b
    cases b
    rfl
  simp only [specTrimmedBlocks, h1, h2, hlead, hf, List.map_id']

/-- Witness for the amended C8 at a normalized, trimmed input. -/
theorem trim_base_offset_witness :
    MRblocks ("a\n\nb".toList) = specTrimmedBlocks ("a\n\nb".toList) :=
  trim_base_offset ("a\n\nb".toList) (by decide) (by decide)

-- The inline formatter of the `Word` component.

/-- The ECMAScript LineTerminator set: without the `s` flag, `.` in a
regex matches any character except `\n`, `\r`, U+2028 and U+2029. -/
def isLineTerm (c : Char) : Bool :=
  c == '\n' || c == '\r' || c == '\u2028' || c == '\u2029'

/-- Lazy search for the closing delimiter of `/(DELIM)(.*?)\1/`: find the
shortest split `t = content ++ d ++ rest` whose content contains no line
terminator (`.` matches neither `\n` nor `\r`, U+2028, U+2029); the close
is tried before extending the content, exactly as a lazy quantifier does. -/
def findClose (d : List Char) : List Char → Option (List Char × List Char)
  | [] => if d.isPrefixOf ([] : List Char) then some ([], []) else none
  | c :: r =>
    if d.isPrefixOf (c :: r) then some ([], (c :: r).drop d.length)
    else if isLineTerm c then none
    else (findClose d r).map (fun p => (c :: p.1, p.2))

/-- Try to match one of the alternation's delimiters at the current
position, in order (the regex tries the first alternative first and
backtracks to the next when no close exists). -/
def tryAt (ds : List (List Char)) (s : List Char) :
    Option (List Char × List Char) :=
  match ds with
  | [] => none
  | d :: rest =>
    if d.isEmpty then tryAt rest s
    else if d.isPrefixOf s then
      match findClose d (s.drop d.length) with
      | some p => some p
      | none => tryAt rest s
    else tryAt rest s

theorem isPrefixOfEquiv (l1 : List Char) : ∀ l2 : List Char,
    l1.isPrefixOf l2 = true ↔ ∃ t, l1 ++ t = l2 := by
  induction l1 with
  | nil =>
    intro l2
    constructor
    · intro _
      exact ⟨l2, rfl⟩
    · intro _
      cases l2 <;> rfl
  | cons a as ih =>
    intro l2
    cases l2 with
    | nil =>
      constructor
      · intro h
        simp [List.isPrefixOf] at h
      · rintro ⟨t, ht⟩
        simp at ht
    | cons b bs =>
      simp only [List.isPrefixOf, Bool.and_eq_true, beq_iff_eq]
      constructor
      · rintro ⟨rfl, h⟩
        obtain ⟨t, rfl⟩ := (ih bs).mp h
        exact ⟨t, rfl⟩
      · rintro ⟨t, ht⟩
        rw [List.cons_append] at ht
        injection ht with h1 h2
        exact ⟨h1, (ih bs).mpr ⟨t, h2⟩⟩

theorem isPrefixOfLen (l1 l2 : List Char) (h : l1.isPrefixOf l2 = true) :
    l1.length ≤ l2.length := by
  obtain ⟨t, rfl⟩ := (isPrefixOfEquiv l1 l2).mp h
  simp

theorem findClose_len (d : List Char) : ∀ t content r,
    findClose d t = some (content, r) → r.length + d.length ≤ t.length := by
  intro t
  induction t with
  | nil =>
    intro content r h
    simp only [findClose] at h
    split_ifs at h with hp
    · cases d with
      | nil =>
        simp only [Option.some.injEq, Prod.mk.injEq] at h
        simp [← h.2]
      | cons c0 d' => simp [List.isPrefixOf] at hp
  | cons c rest ih =>
    intro content r h
    simp only [findClose] at h
    split_ifs at h with hp hn
    · have hle : d.length ≤ (c :: rest).length := isPrefixOfLen _ _ hp
      simp only [Option.some.injEq, Prod.mk.injEq] at h
      rw [← h.2, List.length_drop]
      omega
    · cases hfc : findClose d rest with
      | none =>
        rw [hfc] at h
        simp at h
      | some p =>
        obtain ⟨content0, r0⟩ := p
        rw [hfc] at h
        simp only [Option.map_some', Option.some.injEq, Prod.mk.injEq] at h
        have := ih content0 r0 hfc
        rw [← h.2]
        simp only [List.length_cons]
        omega

theorem tryAt_len (ds : List (List Char)) (s content r : List Char) :
    tryAt ds s = some (content, r) → r.length + 2 ≤ s.length := by
  induction ds with
  | nil => intro h; simp [tryAt] at h
  | cons d rest ih =>
    intro h
    simp only [tryAt] at h
    split_ifs at h with he hp
    · exact ih h
    · cases hfc : findClose d (s.drop d.length) with
      | none =>
        rw [hfc] at h
        exact ih h
      | some p =>
        rw [hfc] at h
        obtain ⟨content0, r0⟩ := p
        simp only [Option.some.injEq, Prod.mk.injEq] at h
        have hlen := findClose_len d (s.drop d.length) content0 r0 hfc
        have hdl : 1 ≤ d.length := by
          cases d with
          | nil => simp at he
          | cons a b => simp
        have hsl : d.length ≤ s.length := isPrefixOfLen _ _ hp
        rw [List.length_drop] at hlen
        rw [← h.2]
        omega
    · exact ih h

/-- One pass of a global replacement `str.replace(/(A|B)(.*?)\1/g, ...)`,
scanning left to right: when the alternation matches at the current
position, emit the wrapped content and continue after the match;
otherwise copy one character. The fuel argument (always at least the
string length) makes the recursion structural. -/
def replaceEmphFuel (ds : List (List Char)) (wl wr : List Char) :
    Nat → List Char → List Char
  | 0, s => s
  | _ + 1, [] => []
  | fuel + 1, c :: rest =>
    match tryAt ds (c :: rest) with
    | some (content, r) => wl ++ content ++ wr ++ replaceEmphFuel ds wl wr fuel r
    | none => c :: replaceEmphFuel ds wl wr fuel rest

def replaceEmph (ds : List (List Char)) (wl wr s : List Char) : List Char :=
  replaceEmphFuel ds wl wr s.length s

theorem replaceEmphFuel_irrel (ds : List (List Char)) (wl wr : List Char) :
    ∀ f1 s f2, s.length ≤ f1 → s.length ≤ f2 →
      replaceEmphFuel ds wl wr f1 s = replaceEmphFuel ds wl wr f2 s := by
  intro f1
  induction f1 with
  | zero =>
    intro s f2 h1 _
    have : s = [] := List.length_eq_zero.mp (by omega)
    subst this
    cases f2 <;> rfl
  | succ f1 ih =>
    intro s f2 h1 h2
    cases s with
    | nil => cases f2 <;> rfl
    | cons c rest =>
      simp only [List.length_cons] at h1 h2
      cases f2 with
      | zero => omega
      | succ g =>
        cases htry : tryAt ds (c :: rest) with
        | none =>
          simp only [replaceEmphFuel, htry]
          rw [ih rest g (by omega) (by omega)]
        | some p =>
          obtain ⟨content, r⟩ := p
          have hr := tryAt_len ds (c :: rest) content r htry
          simp only [List.length_cons] at hr
          simp only [replaceEmphFuel, htry]
          rw [ih r g (by omega) (by omega)]

theorem replaceEmph_cons (ds : List (List Char)) (wl wr : List Char)
    (c : Char) (rest : List Char) :
    replaceEmph ds wl wr (c :: rest)
      = match tryAt ds (c :: rest) with
        | some (content, r) => wl ++ content ++ wr ++ replaceEmph ds wl wr r
        | none => c :: replaceEmph ds wl wr rest := by
  cases htry : tryAt ds (c :: rest) with
  | none =>
    simp only [replaceEmph, List.length_cons, replaceEmphFuel, htry]
  | some p =>
    obtain ⟨content, r⟩ := p
    have hr := tryAt_len ds (c :: rest) content r htry
    simp only [List.length_cons] at hr
    simp only [replaceEmph, List.length_cons, replaceEmphFuel, htry]
    rw [replaceEmphFuel_irrel ds wl wr rest.length r r.length (by omega)
      (le_refl _)]

-- No-match and firing lemmas for the emphasis replacement.

theorem tryAt_none_of_clean (ds : List (List Char))
    (hds : ∀ d ∈ ds, d.head? = some '*' ∨ d.head? = some '_') :
    ∀ s : List Char, (∀ x ∈ s, x ≠ '*' ∧ x ≠ '_') → tryAt ds s = none := by
  induction ds with
  | nil => intro s _; rfl
  | cons d rest ih =>
    intro s hs
    have hdsr : ∀ d2 ∈ rest, d2.head? = some '*' ∨ d2.head? = some '_' :=
      fun d2 h2 => hds d2 (List.mem_cons_of_mem d h2)
    simp only [tryAt]
    split_ifs with he hp
    · exact ih hdsr s hs
    · exfalso
      cases d with
      | nil => simp at he
      | cons c0 d2 =>
        obtain ⟨t2, ht2⟩ := (isPrefixOfEquiv _ _).mp hp
        have hmem : c0 ∈ s := by
          rw [← ht2]
          exact List.mem_append_left t2 (List.mem_cons_self c0 d2)
        have hclean := hs c0 hmem
        have hhead := hds (c0 :: d2) (List.mem_cons_self _ _)
        simp only [List.head?_cons, Option.some.injEq] at hhead
        rcases hhead with rfl | rfl
        · exact hclean.1 rfl
        · exact hclean.2 rfl
    · exact ih hdsr s hs

theorem replaceEmphFuel_clean (ds : List (List Char)) (wl wr : List Char)
    (hds : ∀ d ∈ ds, d.head? = some '*' ∨ d.head? = some '_') :
    ∀ fuel (s : List Char), (∀ x ∈ s, x ≠ '*' ∧ x ≠ '_') →
      replaceEmphFuel ds wl wr fuel s = s := by
  intro fuel
  induction fuel with
  | zero => intro s _; rfl
  | succ f ih =>
    intro s hs
    cases s with
    | nil => rfl
    | cons c rest =>
      have htry := tryAt_none_of_clean ds hds (c :: rest) hs
      simp only [replaceEmphFuel, htry]
      rw [ih rest (fun x hx => hs x (List.mem_cons_of_mem c hx))]

theorem replaceEmph_clean (ds : List (List Char))
    (hds : ∀ d ∈ ds, d.head? = some '*' ∨ d.head? = some '_')
    (wl wr s : List Char) (hs : ∀ x ∈ s, x ≠ '*' ∧ x ≠ '_') :
    replaceEmph ds wl wr s = s :=
  replaceEmphFuel_clean ds wl wr hds s.length s hs

theorem findClose_cons_pos (d : List Char) (x : Char) (r : List Char)
    (hp : d.isPrefixOf (x :: r) = true) :
    findClose d (x :: r) = some ([], (x :: r).drop d.length) := by
  simp only [findClose, hp, if_true]

theorem findClose_cons_neg (d : List Char) (x : Char) (r : List Char)
    (hp : d.isPrefixOf (x :: r) = false) (hn : isLineTerm x = false) :
    findClose d (x :: r) = (findClose d r).map (fun p => (x :: p.1, p.2)) := by
  simp only [findClose, hp, hn, Bool.false_eq_true, if_false]

theorem findClose_append (d t u : List Char) (hd : d ≠ [])
    (hdh : d.head? = some '*' ∨ d.head? = some '_')
    (ht : ∀ x ∈ t, x ≠ '*' ∧ x ≠ '_' ∧ isLineTerm x = false) :
    findClose d (t ++ (d ++ u)) = some (t, u) := by
  induction t with
  | nil =>
    cases d with
    | nil => exact absurd rfl hd
    | cons c0 d2 =>
      have hp : (c0 :: d2).isPrefixOf (c0 :: (d2 ++ u)) = true :=
        (isPrefixOfEquiv _ _).mpr ⟨u, rfl⟩
      calc findClose (c0 :: d2) ([] ++ ((c0 :: d2) ++ u))
          = findClose (c0 :: d2) (c0 :: (d2 ++ u)) := by simp
        _ = some ([], (c0 :: (d2 ++ u)).drop (c0 :: d2).length) :=
            findClose_cons_pos _ _ _ hp
        _ = some ([], u) := by
            simp [List.length_cons, List.drop_succ_cons, List.drop_left]
  | cons x t' ih =>
    have hx := ht x (List.mem_cons_self x t')
    have hp : d.isPrefixOf (x :: (t' ++ (d ++ u))) = false := by
      cases d with
      | nil => exact absurd rfl hd
      | cons c0 d2 =>
        have hne : (c0 == x) = false := by
          simp only [List.head?_cons, Option.some.injEq] at hdh
          rcases hdh with rfl | rfl
          · exact beq_eq_false_iff_ne.mpr (fun hh => hx.1 hh.symm)
          · exact beq_eq_false_iff_ne.mpr (fun hh => hx.2.1 hh.symm)
        simp [List.isPrefixOf, hne]
    have ih2 := ih (fun y hy => ht y (List.mem_cons_of_mem x hy))
    calc findClose d ((x :: t') ++ (d ++ u))
        = findClose d (x :: (t' ++ (d ++ u))) := by rw [List.cons_append]
      _ = (findClose d (t' ++ (d ++ u))).map (fun p => (x :: p.1, p.2)) :=
          findClose_cons_neg _ _ _ hp hx.2.2
      _ = some (x :: t', u) := by rw [ih2]; rfl

theorem tryAt_pair_fst (d1 d2 t u : List Char) (hd1 : d1 ≠ [])
    (hdh : d1.head? = some '*' ∨ d1.head? = some '_')
    (ht : ∀ x ∈ t, x ≠ '*' ∧ x ≠ '_' ∧ isLineTerm x = false) :
    tryAt [d1, d2] (d1 ++ (t ++ (d1 ++ u))) = some (t, u) := by
  have he : d1.isEmpty = false := by
    cases d1 with
    | nil => exact absurd rfl hd1
    | cons a b => rfl
  have hp : d1.isPrefixOf (d1 ++ (t ++ (d1 ++ u))) = true :=
    (isPrefixOfEquiv _ _).mpr ⟨t ++ (d1 ++ u), rfl⟩
  simp only [tryAt, he, Bool.false_eq_true, if_false, hp, if_true,
    List.drop_left, findClose_append d1 t u hd1 hdh ht]

theorem replaceEmph_pair_fst (d1 d2 wl wr t u : List Char) (hd1 : d1 ≠ [])
    (hdh : d1.head? = some '*' ∨ d1.head? = some '_')
    (ht : ∀ x ∈ t, x ≠ '*' ∧ x ≠ '_' ∧ isLineTerm x = false) :
    replaceEmph [d1, d2] wl wr (d1 ++ (t ++ (d1 ++ u)))
      = wl ++ t ++ wr ++ replaceEmph [d1, d2] wl wr u := by
  have htry := tryAt_pair_fst d1 d2 t u hd1 hdh ht
  cases d1 with
  | nil => exact absurd rfl hd1
  | cons c0 d1' =>
    simp only [List.cons_append] at htry ⊢
    rw [replaceEmph_cons, htry]

/-- The alternations of the three replacements of the `Word` component,
in source order: `(\*\*\*|___)`, then `(\*\*|__)`, then `(\*|_)`. -/
def tripleDelims : List (List Char) := ["***".toList, "___".toList]

def doubleDelims : List (List Char) := ["**".toList, "__".toList]

def singleDelims : List (List Char) := ["*".toList, "_".toList]

/-- The inline formatter of the `Word` component: the three chained global
replacements, most specific first (bold+italic, then bold, then italic). -/
def wordContent (s : List Char) : List Char :=
  replaceEmph singleDelims ("<em>".toList) "</em>".toList
    (replaceEmph doubleDelims ("<strong>".toList) "</strong>".toList
      (replaceEmph tripleDelims ("<strong><em>".toList) "</em></strong>".toList s))

/-- Claim C9: the formatter recognizes `***`/`___` as bold+italic, then
`**`/`__` as bold, then `*`/`_` as italic, in that precedence order,
stripping the delimiters and wrapping the inner text; text without any
delimiter characters — and unmatched delimiters — pass through
unchanged. The second conjunct is the general wrapping law of one
replacement pass: a delimited span at the head is stripped and wrapped
and scanning continues after it. -/
theorem inline_formatter :
    (∀ s : List Char, (∀ x ∈ s, x ≠ '*' ∧ x ≠ '_') → wordContent s = s)
    ∧ (∀ t u : List Char, (∀ x ∈ t, x ≠ '*' ∧ x ≠ '_' ∧ isLineTerm x = false) →
        replaceEmph doubleDelims ("<strong>".toList) "</strong>".toList
            ("**".toList ++ (t ++ ("**".toList ++ u)))
          = "<strong>".toList ++ t ++ "</strong>".toList
              ++ replaceEmph doubleDelims ("<strong>".toList) "</strong>".toList u)
    ∧ wordContent ("***bold italic***".toList)
        = "<strong><em>bold italic</em></strong>".toList
    ∧ wordContent ("___bi___".toList) = "<strong><em>bi</em></strong>".toList
    ∧ wordContent ("**bold**".toList) = "<strong>bold</strong>".toList
    ∧ wordContent ("__b__".toList) = "<strong>b</strong>".toList
    ∧ wordContent ("*italic*".toList) = "<em>italic</em>".toList
    ∧ wordContent ("_i_".toList) = "<em>i</em>".toList
    ∧ wordContent ("***a*** *b*".toList)
        = "<strong><em>a</em></strong> <em>b</em>".toList
    ∧ wordContent ("a * b and c _ d".toList) = "a * b and c _ d".toList := by
  refine ⟨?_, ?_, by decide, by decide, by decide, by decide, by decide,
    by decide, by decide, by decide⟩
  · intro s hs
    have hds3 : ∀ d ∈ tripleDelims, d.head? = some '*' ∨ d.head? = some '_' := by
      decide
    have hds2 : ∀ d ∈ doubleDelims, d.head? = some '*' ∨ d.head? = some '_' := by
      decide
    have hds1 : ∀ d ∈ singleDelims, d.head? = some '*' ∨ d.head? = some '_' := by
      decide
    rw [wordContent, replaceEmph_clean tripleDelims hds3 _ _ s hs,
      replaceEmph_clean doubleDelims hds2 _ _ s hs,
      replaceEmph_clean singleDelims hds1 _ _ s hs]
  · intro t u ht
    have := replaceEmph_pair_fst ("**".toList) "__".toList ("<strong>".toList)
      "</strong>".toList t u (by decide) (Or.inl (by decide)) ht
    simpa [doubleDelims] using this

/-- Witness for C9: delimiter-free text is unchanged. -/
theorem inline_formatter_witness :
    wordContent ("plain text".toList) = "plain text".toList :=
  inline_formatter.1 ("plain text".toList) (by decide)
